import Mathlib

/-!
# Verification of the Arrow IPC stream writer (`go/arrow/ipc/writer.go`)

A shallow embedding of the writer's core logic: the dictionary-tracking
state machine (`writeDictionaryPayloads`), the record encoder's array
visitor (`visit`, `encode`), the offset-rebasing helper
(`getZeroBasedValueOffsets`), the validity-bitmap rule
(`newTruncatedBitmap`), the body-buffer compression pass
(`compressBodyBuffers`), the writer constructors and `Close`.

Machine integers are modelled as `Nat`/`Int` (with explicit wrapping where
it matters), buffers as `List UInt8`, i32 offset buffers as `List Int`
(one entry per 4 bytes), and reference-counted Go maps as association
lists.  Helpers that live outside the staged file (`bitutil`, `memory`,
`dictutils`, `paddedLength`, `kEOS`, the compression codecs) are modelled
from the spec where needed; each such definition says so in its doc
comment.
-/

namespace ArrowIPC

/-! ## Alignment and byte utilities -/

/-- Modelled from the spec: `kArrowAlignment` is defined outside the staged
file; the spec fixes the alignment unit at 8 bytes throughout (§6). -/
def kArrowAlignment : Nat := 8

/-- `math.MaxInt32`. -/
def maxInt32 : Nat := 2 ^ 31 - 1

/-- Modelled from the spec: `paddedLength(nbytes, alignment)` (§4.6)
rounds up to a multiple of the alignment. -/
def paddedLength (n align : Nat) : Nat := (n + align - 1) / align * align

/-- Modelled from the spec: `bitutil.BytesForBits` (§4.6), the number of
bytes holding `n` bits. -/
def bytesForBits (n : Nat) : Nat := (n + 7) / 8

/-- Modelled from the spec: `bitutil.CeilByte64`, rounding a byte count up
to the next multiple of 8 (§4.3: padding to the next 8-byte boundary). -/
def ceilByte64 (n : Nat) : Nat := (n + 7) / 8 * 8

/-- `minI64` (writer.go line 778). -/
def minI64 (a b : Nat) : Nat := if a < b then a else b

/-- The little-endian 8-byte encoding of a length, as written by
`binary.Write(&buf, binary.LittleEndian, uint64(...))` (line 330). -/
def uint64LE (n : Nat) : List UInt8 :=
  (List.range 8).map fun i => UInt8.ofNat (n / 256 ^ i % 256)

/-- Two's-complement wrap of an integer into the `int32` range, for the
offset subtraction `o - startOffset` performed on int32 values. -/
def int32wrap (z : Int) : Int := (z + 2 ^ 31) % 2 ^ 32 - 2 ^ 31

/-- Bit `i` of a little-endian bitmap stored as bytes (glossary: little
endian bit order within each byte). Out-of-range bits read as 0. -/
def getBit (bs : List UInt8) (i : Nat) : Bool :=
  (bs.getD (i / 8) 0).toNat / 2 ^ (i % 8) % 2 == 1

/-- Modelled from the spec: `bitutil.CopyBitmap` (§4.6) is outside the
staged file.  Produces a `dstLen`-byte buffer whose first `nbits` bits are
bits `[srcOffset, srcOffset+nbits)` of `src` and whose remaining bits are
zero. -/
def copyBitmapBytes (src : List UInt8) (srcOffset nbits dstLen : Nat) : List UInt8 :=
  (List.range dstLen).map fun byteIdx =>
    UInt8.ofNat (((List.range 8).map fun b =>
      let j := byteIdx * 8 + b
      if j < nbits && getBit src (srcOffset + j) then 2 ^ b else 0).sum)

/-! ## Dictionary tracking (`writeDictionaryPayloads`, lines 183-247)

`dictutils.CollectDictionaries` and `array.ApproxEqual` live outside the
staged file, so the loop takes the collected `(id, dictionary)` pairs as
input and element-wise approximate equality as an abstract boolean
relation `eq` (the spec: element-wise-approximately-equal, NaNs compare
equal).  A dictionary array carries the identity of its underlying
`ArrayData` (Go compares the two `Data()` pointers), the tree of type
tags used by `hasNestedDict`, and its values. -/

/-- The shape of an `arrow.ArrayData`: whether the node's data type is
`arrow.DICTIONARY`, and the children. -/
inductive ArrayDataTree where
  | node (isDictType : Bool) (children : List ArrayDataTree)

mutual
/-- `hasNestedDict` (lines 62-72): the data type is `DICTIONARY`, or some
child has a nested dictionary. -/
def hasNestedDict : ArrayDataTree → Bool
  | .node d cs => d || hasNestedDictList cs

/-- The `for _, c := range data.Children()` loop of `hasNestedDict`. -/
def hasNestedDictList : List ArrayDataTree → Bool
  | [] => false
  | c :: cs => hasNestedDict c || hasNestedDictList cs
end

/-- A dictionary array as the tracker sees it: the identity of its
underlying buffers (`Data()` pointer), its `ArrayData` tree, and its
values. -/
structure DictArr (α : Type) where
  dataId : Nat
  tree : ArrayDataTree
  values : List α

/-- Modelled from the spec: `array.ApproxEqual` / `array.SliceApproxEqual`
with `WithNaNsEqual(true)` are outside the staged file; element-wise
comparison of two value sequences under the abstract equivalence `eq`
(§4.2: element-wise-approximately-equal, NaNs compare equal). -/
def approxEqualList {α : Type} (eq : α → α → Bool) (xs ys : List α) : Bool :=
  xs.length == ys.length && (List.zip xs ys).all fun ab => eq ab.1 ab.2

/-- What the loop body of `writeDictionaryPayloads` does for one
`(id, dictionary)` pair. -/
inductive DictAction (α : Type) where
  | skip
  | emit (isDelta : Bool) (values : List α)
  | replacementError
deriving DecidableEq

/-- The decision taken by the loop body of `writeDictionaryPayloads`
(lines 195-245) for one pair, given the last written dictionary for its
id (if any): skip, emit a payload (`isDelta`, values emitted), or fail
with the file-format dictionary-replacement error. -/
def dictStep {α : Type} (isFileFormat emitDictDeltas : Bool) (eq : α → α → Bool)
    (lastOpt : Option (DictArr α)) (dict : DictArr α) : DictAction α :=
  match lastOpt with
  | none => .emit false dict.values
  | some lastDict =>
    if lastDict.dataId == dict.dataId then .skip
    else
      let newLen := dict.values.length
      let lastLen := lastDict.values.length
      if lastLen == newLen && approxEqualList eq lastDict.values dict.values then .skip
      else if isFileFormat then .replacementError
      else
        let deltaStart : Nat :=
          if decide (newLen > lastLen) && emitDictDeltas && !(hasNestedDict dict.tree) &&
              approxEqualList eq (lastDict.values.take lastLen) (dict.values.take lastLen)
          then lastLen else 0
        if deltaStart > 0 then .emit true (dict.values.drop deltaStart)
        else .emit false dict.values

/-- Lookup in the `lastWrittenDicts` map, modelled as an association
list keyed by dictionary id. -/
def lookupDict {α : Type} : List (Int × DictArr α) → Int → Option (DictArr α)
  | [], _ => none
  | (k, d) :: rest, id => if k == id then some d else lookupDict rest id

/-- The map update `lastWrittenDicts[pair.ID] = pair.Dict` (line 240). -/
def updateDict {α : Type} : List (Int × DictArr α) → Int → DictArr α → List (Int × DictArr α)
  | [], id, d => [(id, d)]
  | (k, e) :: rest, id, d =>
    if k == id then (id, d) :: rest else (k, e) :: updateDict rest id d

/-- The error returned at lines 212-214 when the file format sees a
dictionary replacement. -/
inductive DictErr where
  | dictionaryReplacement
deriving DecidableEq

/-- A `DictionaryBatch` payload: id, the `isDelta` flag (true exactly when
`deltaStart > 0`, line 232), and the emitted values (the whole dictionary
or the slice `[deltaStart, len)`, lines 227-231). -/
structure DictPayload (α : Type) where
  id : Int
  isDelta : Bool
  values : List α
deriving DecidableEq

/-- `writeDictionaryPayloads` (lines 183-247) over the collected pairs:
returns the payloads handed to the payload writer in order, the updated
`lastWrittenDicts` map, and the error if the loop aborted (payloads
written before the abort are still reported, as they were already handed
to the sink). -/
def writeDictionaryPayloads {α : Type} (isFileFormat emitDictDeltas : Bool)
    (eq : α → α → Bool) :
    List (Int × DictArr α) → List (Int × DictArr α) →
    List (DictPayload α) × List (Int × DictArr α) × Option DictErr
  | [], last => ([], last, none)
  | (id, d) :: rest, last =>
    match dictStep isFileFormat emitDictDeltas eq (lookupDict last id) d with
    | .skip => writeDictionaryPayloads isFileFormat emitDictDeltas eq rest last
    | .replacementError => ([], last, some .dictionaryReplacement)
    | .emit isDelta vals =>
      let r := writeDictionaryPayloads isFileFormat emitDictDeltas eq rest
        (updateDict last id d)
      (⟨id, isDelta, vals⟩ :: r.1, r.2.1, r.2.2)

/-! ## The record encoder (`recordEncoder`, lines 294-444)

Arrays are modelled flat: a type tag, logical length, null count, logical
offset, and the underlying buffers.  The claims exercise the entry guards
of `visit`, the Null / Boolean / FixedWidth branches, the validity-bitmap
rule and the buffer-metadata computation; the nested-container branches
recurse into child arrays through the same guards, bitmap rule and
metadata computation and are not separately modelled. -/

/-- The array type tags whose `visit` branches the claims exercise. -/
inductive ArrType where
  | nullType
  | boolean
  | fixedWidth (bitWidth : Nat)
deriving DecidableEq

/-- An array as `visit` consumes it: `arr.Len()`, `arr.NullN()`,
`data.Offset()`, the validity bitmap `data.Buffers()[0]` and the values
buffer `data.Buffers()[1]` (absent buffers are `none`). -/
structure ArrData where
  typ : ArrType
  length : Nat
  nullN : Nat
  offset : Nat
  validity : Option (List UInt8)
  values : Option (List UInt8)
deriving DecidableEq

/-- `fieldMetadata`: the triple appended at lines 470-474, with
`Offset: 0` literal. -/
structure FieldMeta where
  len : Nat
  nulls : Nat
  offset : Nat
deriving DecidableEq

/-- `bufferMetadata`: offset into the body and unpadded length
(lines 429-434). -/
structure BufferMeta where
  offset : Nat
  len : Nat
deriving DecidableEq

/-- The errors `visit`/`encode` can surface: `errMaxRecursion` (line 448),
`errBigArray` (line 452), and the `panic("not aligned")` at line 440. -/
inductive EncErr where
  | maxRecursion
  | bigArray
  | alignmentPanic
deriving DecidableEq

/-- The error a compression codec reports (`codec.Write`/`codec.Close`
failing, lines 334-339). -/
inductive CompErr where
  | codecFailed
deriving DecidableEq

/-- The fields of `recordEncoder` the claims read: depth budget, start
offset, the 64-bit-lengths flag, the codec id (`-1` = no compression, as
`flatbuf.CompressionType`), the worker count, and the accumulated field
and buffer metadata. -/
structure EncState where
  depth : Int
  start : Nat
  allow64b : Bool
  codec : Int
  compressNP : Int
  fields : List FieldMeta
  meta : List BufferMeta
deriving DecidableEq

/-- The body-buffer list and body size of a `Payload`. -/
structure Payload where
  body : List (Option (List UInt8))
  size : Nat
deriving DecidableEq

/-- `newTruncatedBitmap` (lines 752-769): nil input stays nil; with a
nonzero offset or an input longer than the padded minimum the bits
`[offset, offset+length)` are copied into a fresh zero-padded buffer;
otherwise the input buffer is retained unchanged. -/
def newTruncatedBitmap (offset length : Nat) (input : Option (List UInt8)) :
    Option (List UInt8) :=
  match input with
  | none => none
  | some buf =>
    let minLength := paddedLength (bytesForBits length) kArrowAlignment
    if offset ≠ 0 ∨ minLength < buf.length then
      some (copyBitmapBytes buf offset length minLength)
    else some buf

/-- The validity-bitmap step of `visit` (lines 480-497): null count zero
appends the absent sentinel; all-null allocates a fresh zeroed bitmap of
the padded length; otherwise the bitmap is truncated/retained by
`newTruncatedBitmap`. -/
def visitBitmap (len nullN offset : Nat) (validity : Option (List UInt8)) :
    Option (List UInt8) :=
  if nullN = 0 then none
  else if nullN = len then
    some (List.replicate (paddedLength (bytesForBits len) kArrowAlignment) (0 : UInt8))
  else newTruncatedBitmap offset len validity

/-- `needTruncate` (lines 771-776). -/
def needTruncate (offset : Nat) (buf : Option (List UInt8)) (minLength : Nat) : Bool :=
  match buf with
  | none => false
  | some b => decide (offset ≠ 0) || decide (minLength < b.length)

/-- `recordEncoder.visit` (lines 446-705) for the modelled branches: the
depth guard, the 64-bit length guard, the common field-metadata append,
the early return for Null arrays, the validity-bitmap append, and the
Boolean / FixedWidth value-buffer handling. -/
def visit (e : EncState) (p : Payload) (arr : ArrData) :
    Except EncErr (EncState × Payload) :=
  if e.depth ≤ 0 then .error .maxRecursion
  else if !e.allow64b && decide (arr.length > maxInt32) then .error .bigArray
  else
    let e1 : EncState := { e with fields := e.fields ++ [⟨arr.length, arr.nullN, 0⟩] }
    match arr.typ with
    | .nullType => .ok (e1, p)
    | .boolean =>
      let p1 : Payload :=
        { p with body := p.body ++ [visitBitmap arr.length arr.nullN arr.offset arr.validity] }
      let bitm : Option (List UInt8) :=
        if arr.length ≠ 0 then newTruncatedBitmap arr.offset arr.length arr.values
        else none
      .ok (e1, { p1 with body := p1.body ++ [bitm] })
    | .fixedWidth bw =>
      let p1 : Payload :=
        { p with body := p.body ++ [visitBitmap arr.length arr.nullN arr.offset arr.validity] }
      let typeWidth := bw / 8
      let minLength := paddedLength (arr.length * typeWidth) kArrowAlignment
      let valuesOut : Option (List UInt8) :=
        if needTruncate arr.offset arr.values minLength then
          match arr.values with
          | some vbytes =>
            let off := arr.offset * typeWidth
            let l := minI64 (ceilByte64 (arr.length * typeWidth)) (vbytes.length - off)
            some ((vbytes.drop off).take l)
          | none => none
        else arr.values
      .ok (e1, { p1 with body := p1.body ++ [valuesOut] })

/-- The `for i, col := range rec.Columns()` loop of `encode`
(lines 401-407). -/
def visitAll (e : EncState) (p : Payload) : List ArrData → Except EncErr (EncState × Payload)
  | [] => .ok (e, p)
  | a :: rest =>
    match visit e p a with
    | .error err => .error err
    | .ok r => visitAll r.1 r.2 rest

/-- One buffer of the `compress` closure (lines 324-342): nil and empty
buffers are untouched; otherwise the buffer is replaced by the
little-endian uncompressed length followed by the codec's output, and a
codec failure is reported. -/
def compressOne (codecFn : List UInt8 → Except CompErr (List UInt8)) :
    Option (List UInt8) → Except CompErr (Option (List UInt8))
  | none => .ok none
  | some b =>
    if b.length = 0 then .ok (some b)
    else
      match codecFn b with
      | .error err => .error err
      | .ok cb => .ok (some (uint64LE b.length ++ cb))

/-- The serial loop of `compressBodyBuffers` (lines 344-352): buffers are
rewritten in order; the first codec error stops the loop, leaving the
failing buffer and the rest untouched, and is returned. -/
def compressSerialLoop (codecFn : List UInt8 → Except CompErr (List UInt8)) :
    List (Option (List UInt8)) → List (Option (List UInt8)) × Option CompErr
  | [] => ([], none)
  | b :: rest =>
    match compressOne codecFn b with
    | .error err => (b :: rest, some err)
    | .ok b1 =>
      let r := compressSerialLoop codecFn rest
      (b1 :: r.1, r.2)

/-- The `compressNP > 1` worker fan-out of `compressBodyBuffers`
(lines 354-396), reduced to its deterministic join: the workers compress
disjoint buffer indices, so an error-free run rewrites every non-empty
buffer, and `return <-errch` on the then-closed, empty channel yields
nil (no error).  A worker that hits a codec error blocks sending on the
unbuffered `errch` — `cancel()` runs only after that send, and the
caller is already looping into `close(ch)`/`wg.Wait()` with no receiver
on `errch` until after the wait — so the staged code never returns from
a failing run.  That case cannot be represented by a terminating
function; the value given here for it (failing buffers left unchanged,
no error) is a placeholder for a call that does not return, and no claim
theorem evaluates this branch. -/
def compressWorkers (codecFn : List UInt8 → Except CompErr (List UInt8))
    (body : List (Option (List UInt8))) :
    List (Option (List UInt8)) × Option CompErr :=
  (body.map fun b =>
    match compressOne codecFn b with
    | .ok b1 => b1
    | .error _ => b,
   none)

/-- `recordEncoder.compressBodyBuffers` (lines 323-397): `compressNP <= 1`
runs the serial loop in the caller; otherwise the worker fan-out runs. -/
def compressBodyBuffers (np : Int) (codecFn : List UInt8 → Except CompErr (List UInt8))
    (body : List (Option (List UInt8))) :
    List (Option (List UInt8)) × Option CompErr :=
  if np ≤ 1 then compressSerialLoop codecFn body
  else compressWorkers codecFn body

/-- The unpadded byte length recorded for a body buffer: 0 for the absent
sentinel (lines 424-427). -/
def bufLenN : Option (List UInt8) → Nat
  | none => 0
  | some b => b.length

/-- The metadata loop of `encode` (lines 415-436): for each body buffer,
record `(offset, unpadded length)` and advance the offset by the length
plus padding to the next 8-byte boundary; also returns the final
offset. -/
def computeMetaAux (offset : Nat) : List (Option (List UInt8)) → List BufferMeta × Nat
  | [] => ([], offset)
  | b :: rest =>
    let size := bufLenN b
    let padding := ceilByte64 size - size
    let r := computeMetaAux (offset + size + padding) rest
    (⟨offset, size⟩ :: r.1, r.2)

/-- The tail of `encode` after the column loop (lines 409-444): run the
compression pass when a codec is configured — its returned error is
discarded, mirroring the bare call at line 410 — then compute the buffer
metadata and body size, panicking if the size is not 8-byte aligned. -/
def encodeFinish (e : EncState) (codecFn : List UInt8 → Except CompErr (List UInt8))
    (body0 : List (Option (List UInt8))) : Except EncErr (EncState × Payload) :=
  let body1 := if e.codec ≠ -1 then (compressBodyBuffers e.compressNP codecFn body0).1
    else body0
  let m := computeMetaAux e.start body1
  let size := m.2 - e.start
  if size % 8 = 0 then .ok ({ e with meta := m.1 }, { body := body1, size := size })
  else .error .alignmentPanic

/-- `recordEncoder.encode` (lines 399-444): visit every column, then
finish with compression, buffer metadata and the alignment check. -/
def encode (e : EncState) (codecFn : List UInt8 → Except CompErr (List UInt8))
    (p : Payload) (cols : List ArrData) : Except EncErr (EncState × Payload) :=
  match visitAll e p cols with
  | .error err => .error err
  | .ok r => encodeFinish r.1 codecFn r.2.body

/-- `getZeroBasedValueOffsets` (lines 707-738).  The i32 offsets buffer is
modelled as its list of entries (its byte length is 4 times the entry
count, `arrow.Int32Traits`).  With a nonzero logical offset or more
entries than `len+1`, a fresh `(len+1)`-entry buffer of rebased offsets is
allocated (`true` marks the fresh allocation, the int32 subtraction wraps);
otherwise the source buffer is retained (`false`).  An empty result maps
to the absent sentinel (lines 733-735). -/
def getZeroBasedValueOffsets (dataOffset dataLen : Nat) (voffsets : List Int) :
    Option (Bool × List Int) :=
  let offsetBytesNeeded := 4 * (dataLen + 1)
  let out : Bool × List Int :=
    if dataOffset ≠ 0 ∨ offsetBytesNeeded < 4 * voffsets.length then
      let offsets := (voffsets.drop dataOffset).take (dataLen + 1)
      let startOffset := offsets.headD 0
      (true, offsets.map fun o => int32wrap (o - startOffset))
    else (false, voffsets)
  if out.2.length = 0 then none else some out

/-! ## The stream writer (`Writer`, lines 74-181 and 249-267) -/

/-- Modelled from the spec: the `kEOS` marker is defined outside the
staged file; the spec (§4.1, glossary) fixes it as four `0xFF` bytes
followed by four zero bytes. -/
def kEOS : List UInt8 := [0xff, 0xff, 0xff, 0xff, 0, 0, 0, 0]

/-- Line 163: `const allow64b = true` — the flag `Writer.Write` hands to
`newRecordEncoder` is a constant, not a configuration option. -/
def writerWriteAllow64b : Bool := true

/-- Modelled from the spec: `kMaxNestingDepth` is defined outside the
staged file; the spec (§6) gives the default maximum nesting depth 64. -/
def kMaxNestingDepth : Int := 64

/-- The writer state the claims read: the `started` flag, whether `pw` is
still non-nil, and the ids of the retained `lastWrittenDicts` entries. -/
structure WriterM where
  started : Bool
  pwOpen : Bool
  dictIds : List Int
deriving DecidableEq

/-- Observable events of `Close`: schema payloads written by `start`
(`payloadFromSchema` is outside the staged file; the spec's typical case
is one Schema payload), raw bytes written to the sink, and dictionary
reference releases. -/
inductive WEvent where
  | schemaPayload
  | bytesOut (bs : List UInt8)
  | releaseDict (id : Int)
deriving DecidableEq

/-- The sink-failure error kind; the sink is modelled infallible, so no
path below produces it. -/
inductive WriterErr where
  | sinkFailure
deriving DecidableEq

/-- `Writer.start` (lines 249-267): set `started`, reset
`lastWrittenDicts` to a fresh empty map, and write the schema payloads. -/
def writerStart (w : WriterM) : WriterM × List WEvent :=
  ({ w with started := true, dictIds := [] }, [WEvent.schemaPayload])

/-- `Writer.Close` (lines 119-142): run `start` if never started; return
immediately if `pw` is already nil; otherwise close the payload writer
(the stream sink's `Close`, lines 43-46, writes `kEOS`), set `pw` to nil,
and release every retained dictionary reference. -/
def writerClose (w : WriterM) : WriterM × List WEvent × Option WriterErr :=
  let s := if !w.started then writerStart w else (w, [])
  if !s.1.pwOpen then (s.1, s.2, none)
  else
    ({ s.1 with pwOpen := false },
     s.2 ++ [WEvent.bytesOut kEOS] ++ s.1.dictIds.map WEvent.releaseDict,
     none)

/-- The configuration fields of `newConfig` the two constructors read
(`config` itself is outside the staged file). -/
structure WConfig where
  codec : Int
  compressNP : Int
deriving DecidableEq

/-- The writer fields set by the constructors that the encoder later
reads. -/
structure WriterHandle where
  codec : Int
  compressNP : Int
deriving DecidableEq

/-- `NewWriter` (lines 107-117): the composite literal omits
`compressNP`, so the field is the Go zero value 0. -/
def NewWriter (cfg : WConfig) : WriterHandle :=
  { codec := cfg.codec, compressNP := 0 }

/-- `NewWriterWithPayloadWriter` (lines 96-105): `compressNP` is copied
from the configuration. -/
def NewWriterWithPayloadWriter (cfg : WConfig) : WriterHandle :=
  { codec := cfg.codec, compressNP := cfg.compressNP }

/-- Whether an `Except` result is a success. -/
def exceptIsOk {ε β : Type} : Except ε β → Bool
  | .ok _ => true
  | .error _ => false

/-! ## Dictionary-tracker lemmas -/

lemma dictStep_skip_of {α : Type} (ff dd : Bool) (eq : α → α → Bool)
    (ld d : DictArr α)
    (h : ld.dataId = d.dataId ∨
      (ld.values.length = d.values.length ∧ approxEqualList eq ld.values d.values = true)) :
    dictStep ff dd eq (some ld) d = .skip := by
  unfold dictStep
  rcases h with h | ⟨h1, h2⟩
  · simp [h]
  · by_cases hid : ld.dataId == d.dataId
    · simp [hid]
    · simp [hid, h1, h2]

lemma lookupDict_updateDict_self {α : Type} (m : List (Int × DictArr α)) (id : Int)
    (d : DictArr α) : lookupDict (updateDict m id d) id = some d := by
  induction m with
  | nil => simp [updateDict, lookupDict]
  | cons kv rest ih =>
    obtain ⟨k, e⟩ := kv
    by_cases hk : k = id
    · simp [updateDict, hk, lookupDict]
    · simp [updateDict, hk, lookupDict, ih]

lemma lookupDict_updateDict_ne {α : Type} (m : List (Int × DictArr α)) (id k : Int)
    (d : DictArr α) (h : id ≠ k) :
    lookupDict (updateDict m k d) id = lookupDict m id := by
  induction m with
  | nil => simp [updateDict, lookupDict, Ne.symm h]
  | cons kv rest ih =>
    obtain ⟨k1, e⟩ := kv
    by_cases hk : k1 = k
    · subst hk
      simp [updateDict, lookupDict, h, Ne.symm h]
    · simp [updateDict, hk, lookupDict, ih]

lemma writeDictionaryPayloads_stable {α : Type} (ff dd : Bool) (eq : α → α → Bool)
    (pairs : List (Int × DictArr α)) :
    ∀ (last : List (Int × DictArr α)) (id : Int), id ∉ pairs.map Prod.fst →
      lookupDict (writeDictionaryPayloads ff dd eq pairs last).2.1 id = lookupDict last id := by
  induction pairs with
  | nil => intro last id _; simp [writeDictionaryPayloads]
  | cons pd rest ih =>
    intro last id hid
    obtain ⟨pid, d⟩ := pd
    simp only [List.map_cons, List.mem_cons, not_or] at hid
    obtain ⟨hne, hrest⟩ := hid
    cases hstep : dictStep ff dd eq (lookupDict last pid) d with
    | skip => simp only [writeDictionaryPayloads, hstep]; exact ih last id hrest
    | replacementError => simp only [writeDictionaryPayloads, hstep]
    | emit isDelta vals =>
      simp only [writeDictionaryPayloads, hstep]
      rw [ih (updateDict last pid d) id hrest, lookupDict_updateDict_ne _ _ _ _ hne]

lemma writeDictionaryPayloads_skip_all {α : Type} (ff dd : Bool) (eq : α → α → Bool)
    (pairs : List (Int × DictArr α)) (last : List (Int × DictArr α))
    (h : ∀ p ∈ pairs, dictStep ff dd eq (lookupDict last p.1) p.2 = .skip) :
    writeDictionaryPayloads ff dd eq pairs last = ([], last, none) := by
  induction pairs with
  | nil => simp [writeDictionaryPayloads]
  | cons pd rest ih =>
    obtain ⟨pid, d⟩ := pd
    have hhead := h (pid, d) (List.mem_cons_self _ _)
    simp only [writeDictionaryPayloads, hhead]
    exact ih fun p hp => h p (List.mem_cons_of_mem _ hp)

lemma writeDictionaryPayloads_post {α : Type} (ff dd : Bool) (eq : α → α → Bool)
    (pairs : List (Int × DictArr α)) :
    ∀ (last : List (Int × DictArr α)) (ps : List (DictPayload α))
      (last1 : List (Int × DictArr α)),
      (pairs.map Prod.fst).Nodup →
      writeDictionaryPayloads ff dd eq pairs last = (ps, last1, none) →
      ∀ p ∈ pairs, dictStep ff dd eq (lookupDict last1 p.1) p.2 = .skip := by
  induction pairs with
  | nil => intro last ps last1 _ _ p hp; simp at hp
  | cons pd rest ih =>
    intro last ps last1 hnd hloop p hp
    obtain ⟨pid, d⟩ := pd
    simp only [List.map_cons, List.nodup_cons] at hnd
    obtain ⟨hnotin, hndrest⟩ := hnd
    cases hstep : dictStep ff dd eq (lookupDict last pid) d with
    | skip =>
      simp only [writeDictionaryPayloads, hstep] at hloop
      rcases List.mem_cons.mp hp with hpeq | hprest
      · subst hpeq
        have hl1 : lookupDict last1 pid = lookupDict last pid := by
          have := writeDictionaryPayloads_stable ff dd eq rest last pid hnotin
          rw [hloop] at this
          exact this
        rw [hl1]; exact hstep
      · exact ih last ps last1 hndrest hloop p hprest
    | replacementError =>
      simp only [writeDictionaryPayloads, hstep, Prod.mk.injEq] at hloop
      exact absurd hloop.2.2 (by simp)
    | emit isDelta vals =>
      simp only [writeDictionaryPayloads, hstep, Prod.mk.injEq] at hloop
      obtain ⟨hps, hl1, herr⟩ := hloop
      have hrest : writeDictionaryPayloads ff dd eq rest (updateDict last pid d) =
          ((writeDictionaryPayloads ff dd eq rest (updateDict last pid d)).1, last1, none) := by
        rw [← hl1, ← herr]
      rcases List.mem_cons.mp hp with hpeq | hprest
      · subst hpeq
        have hl : lookupDict last1 pid = some d := by
          have := writeDictionaryPayloads_stable ff dd eq rest (updateDict last pid d) pid hnotin
          rw [hrest] at this
          simp only at this
          rw [this, lookupDict_updateDict_self]
        rw [hl]
        exact dictStep_skip_of ff dd eq d d (Or.inl rfl)
      · exact ih (updateDict last pid d) _ last1 hndrest hrest p hprest

lemma approxEqualList_eq_of_exact {α : Type} (eq : α → α → Bool)
    (hx : ∀ a b, eq a b = true → a = b) :
    ∀ xs ys : List α, approxEqualList eq xs ys = true → xs = ys := by
  intro xs
  induction xs with
  | nil =>
    intro ys h
    cases ys with
    | nil => rfl
    | cons b bs => simp [approxEqualList] at h
  | cons a as ih =>
    intro ys h
    cases ys with
    | nil => simp [approxEqualList] at h
    | cons b bs =>
      simp only [approxEqualList, List.length_cons, List.zip_cons_cons, List.all_cons,
        Bool.and_eq_true, beq_iff_eq, Nat.add_right_cancel_iff] at h
      obtain ⟨hlen, hab, hrest⟩ := h
      have h1 : a = b := hx a b hab
      have h2 : as = bs := by
        apply ih
        simp only [approxEqualList, Bool.and_eq_true, beq_iff_eq]
        exact ⟨hlen, hrest⟩
      rw [h1, h2]

/-- `dictStep` on a present prior dictionary, match-reduced. -/
lemma dictStep_some {α : Type} (ff dd : Bool) (eq : α → α → Bool) (ld d : DictArr α) :
    dictStep ff dd eq (some ld) d =
      (if ld.dataId == d.dataId then .skip
       else if ld.values.length == d.values.length &&
           approxEqualList eq ld.values d.values then .skip
       else if ff then .replacementError
       else
         let deltaStart : Nat :=
           if decide (d.values.length > ld.values.length) && dd && !(hasNestedDict d.tree) &&
               approxEqualList eq (ld.values.take ld.values.length)
                 (d.values.take ld.values.length)
           then ld.values.length else 0
         if deltaStart > 0 then .emit true (d.values.drop deltaStart)
         else .emit false d.values) := rfl

/-! ## Claim theorems: dictionary tracking -/

/-- C2: with a previously written dictionary for an id,
`writeDictionaryPayloads` skips the pair — emitting no DictionaryBatch
and leaving the tracker map unchanged — when the prior and new
dictionaries share the same underlying buffer identity, or when their
lengths match and they are element-wise approximately equal; and after a
successful pass over pairs with distinct ids, running the identical pass
again (writing the same record twice) emits no payloads at all. -/
theorem dict_identity_skip :
    (∀ (α : Type) (ff dd : Bool) (eq : α → α → Bool) (id : Int) (d : DictArr α)
        (rest last : List (Int × DictArr α)) (ld : DictArr α),
      lookupDict last id = some ld →
      (ld.dataId = d.dataId ∨
        (ld.values.length = d.values.length ∧ approxEqualList eq ld.values d.values = true)) →
      writeDictionaryPayloads ff dd eq ((id, d) :: rest) last =
        writeDictionaryPayloads ff dd eq rest last) ∧
    (∀ (α : Type) (ff dd : Bool) (eq : α → α → Bool)
        (pairs last : List (Int × DictArr α)) (ps : List (DictPayload α))
        (last1 : List (Int × DictArr α)),
      (pairs.map Prod.fst).Nodup →
      writeDictionaryPayloads ff dd eq pairs last = (ps, last1, none) →
      writeDictionaryPayloads ff dd eq pairs last1 = ([], last1, none)) := by
  constructor
  · intro α ff dd eq id d rest last ld hl hskip
    have hstep : dictStep ff dd eq (lookupDict last id) d = .skip := by
      rw [hl]; exact dictStep_skip_of ff dd eq ld d hskip
    simp only [writeDictionaryPayloads, hstep]
  · intro α ff dd eq pairs last ps last1 hnd hloop
    exact writeDictionaryPayloads_skip_all ff dd eq pairs last1
      (writeDictionaryPayloads_post ff dd eq pairs last ps last1 hnd hloop)

/-- C2 witness: writing the pair `(0, dict)` when the tracker already
holds the identical dictionary (same data identity) skips it, and a
second pass over the same pair list emits nothing. -/
theorem dict_identity_skip_w :
    writeDictionaryPayloads false false (fun a b : Nat => a == b)
        [((0 : Int), (⟨1, .node false [], [4]⟩ : DictArr Nat))]
        [((0 : Int), (⟨1, .node false [], [4]⟩ : DictArr Nat))] =
      writeDictionaryPayloads false false (fun a b : Nat => a == b) []
        [((0 : Int), (⟨1, .node false [], [4]⟩ : DictArr Nat))] ∧
    writeDictionaryPayloads false false (fun a b : Nat => a == b)
        [((0 : Int), (⟨1, .node false [], [4]⟩ : DictArr Nat))]
        [((0 : Int), (⟨1, .node false [], [4]⟩ : DictArr Nat))] =
      ([], [((0 : Int), (⟨1, .node false [], [4]⟩ : DictArr Nat))], none) := by
  refine ⟨dict_identity_skip.1 Nat false false _ 0 _ [] _ _ rfl (Or.inl rfl), ?_⟩
  exact dict_identity_skip.2 Nat false false _ _
    [((0 : Int), (⟨1, .node false [], [4]⟩ : DictArr Nat))] []
    [((0 : Int), (⟨1, .node false [], [4]⟩ : DictArr Nat))] (by simp) rfl

/-- C1 counterexample: with a previously written dictionary of length 0,
all of the claim's hypotheses hold (deltas enabled, stream format, no
nested dictionary, `newLen > lastLen`, the first `lastLen = 0` elements
approximately equal), yet the code emits the full dictionary with
`isDelta = false` — `deltaStart` is set to `lastLen = 0` and the
`deltaStart > 0` guard at line 228 fails — where the claim requires a
DictionaryBatch with `isDelta = true`. -/
theorem dict_delta_zero_prior_cex :
    dictStep false true (fun a b : Nat => a == b)
        (some ⟨1, .node false [], []⟩) ⟨2, .node false [], [5]⟩ = .emit false [5] ∧
    ([] : List Nat).length < [5].length ∧
    hasNestedDict (.node false []) = false ∧
    approxEqualList (fun a b : Nat => a == b)
      (List.take ([] : List Nat).length []) (List.take ([] : List Nat).length [5]) = true ∧
    DictAction.emit false [5] ≠ DictAction.emit true ([5].drop ([] : List Nat).length) := by
  refine ⟨rfl, by decide, rfl, rfl, by decide⟩

lemma approxEqualList_refl {α : Type} (eq : α → α → Bool) (hrefl : ∀ a, eq a a = true) :
    ∀ xs : List α, approxEqualList eq xs xs = true := by
  intro xs
  induction xs with
  | nil => rfl
  | cons a as ih =>
    simp only [approxEqualList, List.length_cons, List.zip_cons_cons, List.all_cons,
      Bool.and_eq_true, beq_iff_eq, Nat.add_right_cancel_iff] at ih ⊢
    exact ⟨ih.1, hrefl a, ih.2⟩

lemma approxEqualList_append_drop {α : Type} (eq : α → α → Bool)
    (hrefl : ∀ a, eq a a = true) :
    ∀ xs ys : List α, xs.length ≤ ys.length →
      approxEqualList eq xs (ys.take xs.length) = true →
      approxEqualList eq (xs ++ ys.drop xs.length) ys = true := by
  intro xs
  induction xs with
  | nil =>
    intro ys _ _
    simpa using approxEqualList_refl eq hrefl ys
  | cons a as ih =>
    intro ys hle hap
    cases ys with
    | nil => simp at hle
    | cons b bs =>
      have hle2 : as.length ≤ bs.length := by
        simp only [List.length_cons] at hle
        omega
      simp only [List.length_cons, List.take_succ_cons, approxEqualList, List.zip_cons_cons,
        List.all_cons, Bool.and_eq_true, beq_iff_eq, List.length_take] at hap
      obtain ⟨hlen, hab, hall⟩ := hap
      have hap2 : approxEqualList eq as (bs.take as.length) = true := by
        simp only [approxEqualList, Bool.and_eq_true, beq_iff_eq, List.length_take]
        exact ⟨by omega, hall⟩
      have hih := ih bs hle2 hap2
      simp only [approxEqualList, Bool.and_eq_true, beq_iff_eq] at hih
      simp only [List.length_cons, List.cons_append, List.drop_succ_cons, approxEqualList,
        List.zip_cons_cons, List.all_cons, Bool.and_eq_true, beq_iff_eq, List.length_append]
      refine ⟨?_, hab, hih.2⟩
      have := hih.1
      simp only [List.length_append] at this
      omega

/-- C1 (amended): with a previously written dictionary of positive length
`lastLen`, deltas enabled, the stream format in use, no nested dictionary
in the new dictionary, `newLen > lastLen`, and the first `lastLen`
elements approximately equal to the prior, `writeDictionaryPayloads`
emits exactly the slice `[lastLen, newLen)` as a DictionaryBatch with
`isDelta = true` — for an arbitrary approximate-equality relation; the
prior dictionary concatenated with the emitted slice equals the new
dictionary element-wise under the same comparison (which, like the
NaNs-equal comparison the claim names, is reflexive), and is the new
dictionary as a plain list whenever the comparison is exact equality. -/
theorem dict_delta_amended :
    (∀ (α : Type) (eq : α → α → Bool) (id : Int) (d ld : DictArr α)
        (rest last : List (Int × DictArr α)),
      lookupDict last id = some ld →
      ld.dataId ≠ d.dataId →
      0 < ld.values.length →
      ld.values.length < d.values.length →
      hasNestedDict d.tree = false →
      approxEqualList eq ld.values (d.values.take ld.values.length) = true →
      dictStep false true eq (some ld) d =
        .emit true (d.values.drop ld.values.length) ∧
      writeDictionaryPayloads false true eq ((id, d) :: rest) last =
        (⟨id, true, d.values.drop ld.values.length⟩ ::
          (writeDictionaryPayloads false true eq rest (updateDict last id d)).1,
          (writeDictionaryPayloads false true eq rest (updateDict last id d)).2.1,
          (writeDictionaryPayloads false true eq rest (updateDict last id d)).2.2)) ∧
    (∀ (α : Type) (eq : α → α → Bool) (ld d : DictArr α),
      (∀ a, eq a a = true) →
      ld.values.length ≤ d.values.length →
      approxEqualList eq ld.values (d.values.take ld.values.length) = true →
      approxEqualList eq (ld.values ++ d.values.drop ld.values.length) d.values = true) ∧
    (∀ (α : Type) (eq : α → α → Bool) (ld d : DictArr α),
      (∀ a b, eq a b = true → a = b) →
      approxEqualList eq ld.values (d.values.take ld.values.length) = true →
      ld.values ++ d.values.drop ld.values.length = d.values) := by
  refine ⟨?_, ?_, ?_⟩
  · intro α eq id d ld rest last hlook hid hpos hlt hnest happrox
    have hid2 : (ld.dataId == d.dataId) = false := by
      simp [hid]
    have hlen : (ld.values.length == d.values.length) = false := by
      simp; omega
    have htake : ld.values.take ld.values.length = ld.values := List.take_length ld.values
    have hstep : dictStep false true eq (some ld) d =
        .emit true (d.values.drop ld.values.length) := by
      rw [dictStep_some, hid2]
      simp only [Bool.false_eq_true, if_false, hlen, Bool.false_and]
      rw [htake]
      have hdec : decide (d.values.length > ld.values.length) = true := decide_eq_true hlt
      simp only [hnest, Bool.not_false, happrox, hdec, Bool.and_true, Bool.true_and, if_true]
      simp [hpos]
    refine ⟨hstep, ?_⟩
    have hstep2 : dictStep false true eq (lookupDict last id) d =
        .emit true (d.values.drop ld.values.length) := by rw [hlook]; exact hstep
    simp only [writeDictionaryPayloads, hstep2]
  · intro α eq ld d hrefl hle happrox
    exact approxEqualList_append_drop eq hrefl ld.values d.values hle happrox
  · intro α eq ld d hexact happrox
    have heq2 : ld.values = d.values.take ld.values.length :=
      approxEqualList_eq_of_exact eq hexact _ _ happrox
    calc ld.values ++ d.values.drop ld.values.length
        = d.values.take ld.values.length ++ d.values.drop ld.values.length := by
          rw [← heq2]
      _ = d.values := List.take_append_drop _ _

/-- C1 witness: prior `[1, 2]`, new `[1, 2, 3]`, deltas enabled — the
slice `[3]` is emitted with `isDelta = true`, `[1, 2] ++ [3]` is
approximately equal to the new dictionary, and equal to it outright
since the comparison on `Nat` is exact. -/
theorem dict_delta_amended_w :
    dictStep false true (fun a b : Nat => a == b)
        (some ⟨1, .node false [], [1, 2]⟩) ⟨2, .node false [], [1, 2, 3]⟩ =
      .emit true [3] ∧
    writeDictionaryPayloads false true (fun a b : Nat => a == b)
        [((0 : Int), (⟨2, .node false [], [1, 2, 3]⟩ : DictArr Nat))]
        [((0 : Int), (⟨1, .node false [], [1, 2]⟩ : DictArr Nat))] =
      ([⟨0, true, [3]⟩], [((0 : Int), (⟨2, .node false [], [1, 2, 3]⟩ : DictArr Nat))], none) ∧
    approxEqualList (fun a b : Nat => a == b) ([1, 2] ++ [3]) [1, 2, 3] = true ∧
    [1, 2] ++ [3] = [1, 2, 3] := by
  have h := dict_delta_amended.1 Nat (fun a b : Nat => a == b) 0
    (⟨2, .node false [], [1, 2, 3]⟩ : DictArr Nat) ⟨1, .node false [], [1, 2]⟩ []
    [((0 : Int), (⟨1, .node false [], [1, 2]⟩ : DictArr Nat))]
    rfl (by decide) (by decide) (by decide) rfl rfl
  refine ⟨h.1, by rw [h.2]; rfl, ?_, ?_⟩
  · exact dict_delta_amended.2.1 Nat (fun a b : Nat => a == b)
      (⟨1, .node false [], [1, 2]⟩ : DictArr Nat) ⟨2, .node false [], [1, 2, 3]⟩
      (fun a => by simp) (by decide) rfl
  · exact dict_delta_amended.2.2 Nat (fun a b : Nat => a == b)
      (⟨1, .node false [], [1, 2]⟩ : DictArr Nat) ⟨2, .node false [], [1, 2, 3]⟩
      (fun a b hab => by simpa using hab) rfl

/-- C8: with a previously written dictionary that is neither identical by
buffer identity nor equal by length and approximate element-wise value,
the file-format variant fails with the dictionary-replacement error and
emits no DictionaryBatch for the pair. -/
theorem dict_replacement_file_format {α : Type} (dd : Bool) (eq : α → α → Bool)
    (id : Int) (d ld : DictArr α) (rest last : List (Int × DictArr α))
    (hlook : lookupDict last id = some ld)
    (hid : ld.dataId ≠ d.dataId)
    (hne : ¬(ld.values.length = d.values.length ∧
      approxEqualList eq ld.values d.values = true)) :
    dictStep true dd eq (some ld) d = .replacementError ∧
    writeDictionaryPayloads true dd eq ((id, d) :: rest) last =
      ([], last, some .dictionaryReplacement) := by
  have hid2 : (ld.dataId == d.dataId) = false := by simp [hid]
  have hcond : (ld.values.length == d.values.length &&
      approxEqualList eq ld.values d.values) = false := by
    by_cases h : ld.values.length = d.values.length
    · cases hh : approxEqualList eq ld.values d.values
      · simp [hh]
      · exact absurd ⟨h, hh⟩ hne
    · simp [h]
  have hstep : dictStep true dd eq (some ld) d = .replacementError := by
    rw [dictStep_some, hid2, hcond]
    simp
  refine ⟨hstep, ?_⟩
  have hstep2 : dictStep true dd eq (lookupDict last id) d = .replacementError := by
    rw [hlook]; exact hstep
  simp only [writeDictionaryPayloads, hstep2]

/-- C8 witness: prior `[1, 2]`, new `[9]`, file format — the loop stops
with the dictionary-replacement error and emits nothing. -/
theorem dict_replacement_file_format_w :
    dictStep true false (fun a b : Nat => a == b)
        (some ⟨1, .node false [], [1, 2]⟩) ⟨2, .node false [], [9]⟩ = .replacementError ∧
    writeDictionaryPayloads true false (fun a b : Nat => a == b)
        [((0 : Int), (⟨2, .node false [], [9]⟩ : DictArr Nat))]
        [((0 : Int), (⟨1, .node false [], [1, 2]⟩ : DictArr Nat))] =
      ([], [((0 : Int), (⟨1, .node false [], [1, 2]⟩ : DictArr Nat))],
        some .dictionaryReplacement) :=
  dict_replacement_file_format false (fun a b : Nat => a == b) 0
    (⟨2, .node false [], [9]⟩ : DictArr Nat) ⟨1, .node false [], [1, 2]⟩ []
    [((0 : Int), (⟨1, .node false [], [1, 2]⟩ : DictArr Nat))]
    rfl (by decide) (by decide)

/-! ## Record-encoder lemmas -/

lemma visit_ok_state {e : EncState} {p : Payload} {arr : ArrData}
    {r : EncState × Payload} (h : visit e p arr = .ok r) :
    r.1 = { e with fields := e.fields ++ [⟨arr.length, arr.nullN, 0⟩] } := by
  unfold visit at h
  split at h
  · exact Except.noConfusion h
  · split at h
    · exact Except.noConfusion h
    · split at h <;> simp only [Except.ok.injEq] at h <;> rw [← h]

lemma visitAll_state {cols : List ArrData} :
    ∀ {e : EncState} {p : Payload} {r : EncState × Payload},
      visitAll e p cols = .ok r →
      r.1.start = e.start ∧ r.1.codec = e.codec ∧ r.1.compressNP = e.compressNP ∧
      ((∀ f ∈ e.fields, f.offset = 0) → ∀ f ∈ r.1.fields, f.offset = 0) := by
  induction cols with
  | nil =>
    intro e p r h
    simp only [visitAll, Except.ok.injEq] at h
    rw [← h]
    exact ⟨rfl, rfl, rfl, fun hz => hz⟩
  | cons a rest ih =>
    intro e p r h
    simp only [visitAll] at h
    cases hv : visit e p a with
    | error err => rw [hv] at h; exact Except.noConfusion h
    | ok r1 =>
      rw [hv] at h
      have hstate := visit_ok_state hv
      obtain ⟨h1, h2, h3, h4⟩ := ih h
      rw [hstate] at h1 h2 h3 h4
      refine ⟨h1, h2, h3, fun hz => h4 ?_⟩
      intro f hf
      simp only [List.mem_append, List.mem_singleton] at hf
      rcases hf with hf | hf
      · exact hz f hf
      · rw [hf]

lemma computeMetaAux_props (body : List (Option (List UInt8))) :
    ∀ offset : Nat, offset % 8 = 0 →
      (∀ m ∈ (computeMetaAux offset body).1, m.offset % 8 = 0 ∧ offset ≤ m.offset) ∧
      (computeMetaAux offset body).1.Pairwise (fun a b => a.offset ≤ b.offset) ∧
      (computeMetaAux offset body).1.map BufferMeta.len = body.map bufLenN ∧
      (computeMetaAux offset body).2 = offset + (body.map fun b => ceilByte64 (bufLenN b)).sum ∧
      (computeMetaAux offset body).2 % 8 = 0 := by
  induction body with
  | nil =>
    intro offset h8
    simp [computeMetaAux, h8]
  | cons b rest ih =>
    intro offset h8
    have hsz : bufLenN b + (ceilByte64 (bufLenN b) - bufLenN b) = ceilByte64 (bufLenN b) := by
      unfold ceilByte64; omega
    have hnext8 : (offset + bufLenN b + (ceilByte64 (bufLenN b) - bufLenN b)) % 8 = 0 := by
      unfold ceilByte64 at hsz ⊢; omega
    obtain ⟨hmem, hpw, hlen, hfin, hfin8⟩ :=
      ih (offset + bufLenN b + (ceilByte64 (bufLenN b) - bufLenN b)) hnext8
    refine ⟨?_, ?_, ?_, ?_, ?_⟩
    · intro m hm
      simp only [computeMetaAux, List.mem_cons] at hm
      rcases hm with hm | hm
      · rw [hm]; exact ⟨h8, le_refl _⟩
      · obtain ⟨ha, hb⟩ := hmem m hm
        exact ⟨ha, le_trans (by omega) hb⟩
    · simp only [computeMetaAux, List.pairwise_cons]
      refine ⟨fun m hm => ?_, hpw⟩
      have h2 := (hmem m hm).2
      show offset ≤ m.offset
      omega
    · simp only [computeMetaAux, List.map_cons, hlen]
    · simp only [computeMetaAux, hfin, List.map_cons, List.sum_cons]
      omega
    · simp only [computeMetaAux, hfin8]

lemma encodeFinish_ok {e : EncState}
    {codecFn : List UInt8 → Except CompErr (List UInt8)}
    {body0 : List (Option (List UInt8))} {e1 : EncState} {p1 : Payload}
    (hstart : e.start % 8 = 0)
    (h : encodeFinish e codecFn body0 = .ok (e1, p1)) :
    (∀ m ∈ e1.meta, m.offset % 8 = 0) ∧
    e1.meta.Pairwise (fun a b => a.offset ≤ b.offset) ∧
    e1.meta.map BufferMeta.len = p1.body.map bufLenN ∧
    p1.size = (p1.body.map fun b => ceilByte64 (bufLenN b)).sum ∧
    p1.size % 8 = 0 := by
  simp only [encodeFinish] at h
  set body1 := if e.codec ≠ -1 then (compressBodyBuffers e.compressNP codecFn body0).1
    else body0 with hbody1
  obtain ⟨hmem, hpw, hlen, hfin, hfin8⟩ := computeMetaAux_props body1 e.start hstart
  split at h
  next hsz =>
    simp only [Except.ok.injEq, Prod.mk.injEq] at h
    obtain ⟨he1, hp1⟩ := h
    have hmeta : e1.meta = (computeMetaAux e.start body1).1 := by rw [← he1]
    have hbody : p1.body = body1 := by rw [← hp1]
    have hsize : p1.size = (computeMetaAux e.start body1).2 - e.start := by rw [← hp1]
    refine ⟨?_, ?_, ?_, ?_, ?_⟩
    · intro m hm; exact (hmem m (hmeta ▸ hm)).1
    · rw [hmeta]; exact hpw
    · rw [hmeta, hbody]; exact hlen
    · rw [hsize, hbody, hfin]; omega
    · rw [hsize]; omega
  next hsz => exact Except.noConfusion h

/-! ## Claim theorems: record encoder -/

/-- C5: for every payload produced by `encode`, every buffer-metadata
offset is a multiple of 8, the offsets are non-decreasing, each metadata
length is the unpadded buffer length, the body size is the sum of the
padded buffer lengths, and the body size is a multiple of 8 (the encoder
always runs with `start = 0`; the hypothesis keeps the 8-divisibility of
the start offset it relies on explicit). -/
theorem encode_meta_alignment {e : EncState}
    {codecFn : List UInt8 → Except CompErr (List UInt8)} {p : Payload}
    {cols : List ArrData} {e1 : EncState} {p1 : Payload}
    (hstart : e.start % 8 = 0)
    (henc : encode e codecFn p cols = .ok (e1, p1)) :
    (∀ m ∈ e1.meta, m.offset % 8 = 0) ∧
    e1.meta.Pairwise (fun a b => a.offset ≤ b.offset) ∧
    e1.meta.map BufferMeta.len = p1.body.map bufLenN ∧
    p1.size = (p1.body.map fun b => ceilByte64 (bufLenN b)).sum ∧
    p1.size % 8 = 0 := by
  unfold encode at henc
  cases hv : visitAll e p cols with
  | error err => rw [hv] at henc; exact Except.noConfusion henc
  | ok r =>
    rw [hv] at henc
    exact encodeFinish_ok (by rw [(visitAll_state hv).1]; exact hstart) henc

/-- C5 witness: a one-column int32 record of one value — buffer metadata
`[(0, 0), (0, 4)]`, body size 8 = 0 + padded 4. -/
theorem encode_meta_alignment_w :
    (0 : Nat) % 8 = 0 ∧
    encode ⟨64, 0, true, -1, 0, [], []⟩ (fun b => .ok b) ⟨[], 0⟩
      [⟨.fixedWidth 32, 1, 0, 0, none, some [1, 0, 0, 0]⟩] =
      .ok (⟨64, 0, true, -1, 0, [⟨1, 0, 0⟩], [⟨0, 0⟩, ⟨0, 4⟩]⟩,
        ⟨[none, some [1, 0, 0, 0]], 8⟩) ∧
    ((∀ m ∈ ([⟨0, 0⟩, ⟨0, 4⟩] : List BufferMeta), m.offset % 8 = 0) ∧
      ([⟨0, 0⟩, ⟨0, 4⟩] : List BufferMeta).Pairwise (fun a b => a.offset ≤ b.offset) ∧
      ([⟨0, 0⟩, ⟨0, 4⟩] : List BufferMeta).map BufferMeta.len =
        ([none, some [1, 0, 0, 0]] : List (Option (List UInt8))).map bufLenN ∧
      (8 : Nat) = (([none, some [1, 0, 0, 0]] : List (Option (List UInt8))).map
        fun b => ceilByte64 (bufLenN b)).sum ∧
      (8 : Nat) % 8 = 0) :=
  ⟨by decide, rfl,
    @encode_meta_alignment ⟨64, 0, true, -1, 0, [], []⟩ (fun b => .ok b) ⟨[], 0⟩
      [⟨.fixedWidth 32, 1, 0, 0, none, some [1, 0, 0, 0]⟩]
      ⟨64, 0, true, -1, 0, [⟨1, 0, 0⟩], [⟨0, 0⟩, ⟨0, 4⟩]⟩
      ⟨[none, some [1, 0, 0, 0]], 8⟩ (by decide) rfl⟩

/-- C3 (amended): `visit` fails with the big-array error whenever the
array length exceeds 2^31 − 1 and the encoder's 64-bit-lengths flag is
disabled (and the depth budget is not already exhausted, which `visit`
checks first); `Writer.Write`, however, always constructs its encoder
with the flag hard-enabled (line 163), so the error is unreachable
through the writer. -/
theorem visit_big_array {e : EncState} {p : Payload} {arr : ArrData}
    (hd : 0 < e.depth) (h64 : e.allow64b = false) (hlen : maxInt32 < arr.length) :
    visit e p arr = .error .bigArray := by
  unfold visit
  rw [if_neg (by omega), h64]
  have hdec : decide (arr.length > maxInt32) = true := decide_eq_true hlen
  simp [hdec]

/-- C3 witness: a 2^31-row int32 array visited with the 64-bit flag
disabled returns the big-array error. -/
theorem visit_big_array_w :
    (0 : Int) < 64 ∧
    (⟨64, 0, false, -1, 0, [], []⟩ : EncState).allow64b = false ∧
    maxInt32 < 2 ^ 31 ∧
    visit ⟨64, 0, false, -1, 0, [], []⟩ ⟨[], 0⟩
      ⟨.fixedWidth 32, 2 ^ 31, 0, 0, none, some []⟩ = .error .bigArray :=
  ⟨by decide, rfl, by decide, visit_big_array (by decide) rfl (by decide)⟩

/-- C3 counterexample: `Writer.Write` hands the constant
`allow64b = true` (line 163) to the encoder it builds, so encoding a
2^31-row int32 record through the writer-configured encoder succeeds
instead of returning the ArrayTooLarge error the claim requires for
`allow_64bit_lengths=false` — that option never reaches the writer's
encoder. -/
theorem writer_big_array_cex :
    writerWriteAllow64b = true ∧
    exceptIsOk (encode ⟨kMaxNestingDepth, 0, writerWriteAllow64b, -1, 0, [], []⟩
      (fun b => .ok b) ⟨[], 0⟩
      [⟨.fixedWidth 32, 2 ^ 31, 0, 0, none, some []⟩]) = true :=
  ⟨rfl, rfl⟩

/-- C4: the compression pass reports the codec failure — the serial loop
returns it — but `encode` (line 410) calls `compressBodyBuffers` without
checking the returned error, so encoding a record with a failing codec
still returns success, with the body uncompressed; the error never
aborts the write. -/
theorem encode_discards_compression_error :
    (compressSerialLoop (fun _ => .error CompErr.codecFailed) [some [1, 0, 0, 0]]).2 =
      some CompErr.codecFailed ∧
    encode ⟨64, 0, true, 0, 0, [], []⟩ (fun _ => .error CompErr.codecFailed) ⟨[], 0⟩
      [⟨.fixedWidth 32, 1, 0, 0, none, some [1, 0, 0, 0]⟩] =
      .ok (⟨64, 0, true, 0, 0, [⟨1, 0, 0⟩], [⟨0, 0⟩, ⟨0, 4⟩]⟩,
        ⟨[none, some [1, 0, 0, 0]], 8⟩) :=
  ⟨rfl, rfl⟩

/-- C7: every non-Null array visited appends exactly one validity-bitmap
entry before its type-specific buffer; the entry is the absent sentinel
when the null count is zero, a fresh zeroed bitmap of the padded length
when every value is null, a copy of bits `[offset, offset+len)` into a
new zero-padded buffer when the offset is nonzero or the source is longer
than the padded minimum, and the retained source buffer unchanged
otherwise. -/
theorem visit_bitmap_rule :
    (∀ (e : EncState) (p : Payload) (arr : ArrData) (e1 : EncState) (p1 : Payload),
      visit e p arr = .ok (e1, p1) → arr.typ ≠ .nullType →
      ∃ tb, p1.body = p.body ++ [visitBitmap arr.length arr.nullN arr.offset arr.validity, tb]) ∧
    (∀ (len offset : Nat) (v : Option (List UInt8)), visitBitmap len 0 offset v = none) ∧
    (∀ (len offset : Nat) (v : Option (List UInt8)), 0 < len →
      visitBitmap len len offset v =
        some (List.replicate (paddedLength (bytesForBits len) kArrowAlignment) 0)) ∧
    (∀ (len nullN offset : Nat) (src : List UInt8), nullN ≠ 0 → nullN ≠ len →
      (offset ≠ 0 ∨ paddedLength (bytesForBits len) kArrowAlignment < src.length) →
      visitBitmap len nullN offset (some src) =
        some (copyBitmapBytes src offset len (paddedLength (bytesForBits len) kArrowAlignment))) ∧
    (∀ (len nullN : Nat) (src : List UInt8), nullN ≠ 0 → nullN ≠ len →
      ¬(paddedLength (bytesForBits len) kArrowAlignment < src.length) →
      visitBitmap len nullN 0 (some src) = some src) := by
  refine ⟨?_, ?_, ?_, ?_, ?_⟩
  · intro e p arr e1 p1 h htyp
    unfold visit at h
    split at h
    · exact Except.noConfusion h
    · split at h
      · exact Except.noConfusion h
      · cases harr : arr.typ with
        | nullType => exact absurd harr htyp
        | boolean =>
          rw [harr] at h
          simp only [Except.ok.injEq, Prod.mk.injEq] at h
          obtain ⟨he, hp⟩ := h
          refine ⟨if arr.length ≠ 0 then newTruncatedBitmap arr.offset arr.length arr.values
            else none, ?_⟩
          rw [← hp]
          simp
        | fixedWidth bw =>
          rw [harr] at h
          simp only [Except.ok.injEq, Prod.mk.injEq] at h
          obtain ⟨he, hp⟩ := h
          refine ⟨if needTruncate arr.offset arr.values
              (paddedLength (arr.length * (bw / 8)) kArrowAlignment) then
              match arr.values with
              | some vbytes => some ((vbytes.drop (arr.offset * (bw / 8))).take
                  (minI64 (ceilByte64 (arr.length * (bw / 8)))
                    (vbytes.length - arr.offset * (bw / 8))))
              | none => none
            else arr.values, ?_⟩
          rw [← hp]
          simp
  · intro len offset v
    simp [visitBitmap]
  · intro len offset v hpos
    have : ¬(len = 0) := by omega
    simp [visitBitmap, this]
  · intro len nullN offset src h0 hl hcond
    simp [visitBitmap, h0, hl, newTruncatedBitmap, hcond]
  · intro len nullN src h0 hl hcond
    simp [visitBitmap, h0, hl, newTruncatedBitmap, hcond]

/-- C7 witness: a boolean array with one null of two values retains its
bitmap and appends it once before the values bitmap; the four bitmap
cases at concrete inputs. -/
theorem visit_bitmap_rule_w :
    (∃ tb, (⟨[some [2], some [1]], 0⟩ : Payload).body =
      ([] : List (Option (List UInt8))) ++ [visitBitmap 2 1 0 (some [2]), tb]) ∧
    visitBitmap 3 0 0 none = none ∧
    visitBitmap 3 3 0 none = some (List.replicate 8 0) ∧
    visitBitmap 3 1 1 (some [6, 170]) = some (copyBitmapBytes [6, 170] 1 3 8) ∧
    visitBitmap 3 1 0 (some [6]) = some [6] :=
  ⟨visit_bitmap_rule.1 ⟨64, 0, true, -1, 0, [], []⟩ ⟨[], 0⟩
      ⟨.boolean, 2, 1, 0, some [2], some [1]⟩ ⟨64, 0, true, -1, 0, [⟨2, 1, 0⟩], []⟩
      ⟨[some [2], some [1]], 0⟩ rfl (by decide),
    visit_bitmap_rule.2.1 3 0 none,
    visit_bitmap_rule.2.2.1 3 0 none (by decide),
    visit_bitmap_rule.2.2.2.1 3 1 1 [6, 170] (by decide) (by decide) (by decide),
    visit_bitmap_rule.2.2.2.2 3 1 [6] (by decide) (by decide) (by decide)⟩

/-! ## Offset-rebasing lemmas -/

lemma int32wrap_id {z : Int} (h1 : -2 ^ 31 < z) (h2 : z < 2 ^ 31) : int32wrap z = z := by
  unfold int32wrap; omega

lemma headD_take_succ {β : Type} (l : List β) (k : Nat) (d : β) :
    (l.take (k + 1)).headD d = l.headD d := by
  cases l <;> simp [List.take]

lemma headD_drop_getD (l : List Int) : ∀ o : Nat, (l.drop o).headD 0 = l.getD o 0 := by
  induction l with
  | nil => intro o; cases o <;> simp [List.getD]
  | cons a t ih =>
    intro o
    cases o with
    | zero => simp [List.getD]
    | succ k => simp only [List.drop_succ_cons, List.getD_cons_succ, ih k]

/-- C6 (amended): for a variable-width array, a nonzero logical offset or
an offsets buffer of more than `len+1` entries makes the encoder allocate
a fresh `(len+1)`-entry i32 buffer whose entries are
`src[offset+i] − src[offset]`, so its first entry is 0; otherwise the
source offsets buffer is retained when it is non-empty (an empty source
yields the absent sentinel instead); and the field metadata appended by
the visitor always has offset 0. -/
theorem zero_based_offsets_amended :
    (∀ (o n : Nat) (src : List Int),
      (o ≠ 0 ∨ n + 1 < src.length) →
      o + n + 1 ≤ src.length →
      (∀ z ∈ src, 0 ≤ z ∧ z < 2 ^ 31) →
      getZeroBasedValueOffsets o n src =
        some (true, ((src.drop o).take (n + 1)).map fun z => z - src.getD o 0) ∧
      (((src.drop o).take (n + 1)).map fun z => z - src.getD o 0).length = n + 1 ∧
      (((src.drop o).take (n + 1)).map fun z => z - src.getD o 0).head? = some 0) ∧
    (∀ (o n : Nat) (src : List Int), o = 0 → src.length ≤ n + 1 → src ≠ [] →
      getZeroBasedValueOffsets o n src = some (false, src)) ∧
    (∀ (e : EncState) (p : Payload) (cols : List ArrData) (r : EncState × Payload),
      visitAll e p cols = .ok r → (∀ f ∈ e.fields, f.offset = 0) →
      ∀ f ∈ r.1.fields, f.offset = 0) := by
  refine ⟨?_, ?_, ?_⟩
  · intro o n src hcond hbound hrange
    have hlen : ((src.drop o).take (n + 1)).length = n + 1 := by
      simp [List.length_take, List.length_drop]
      omega
    have hne : ((src.drop o).take (n + 1)) ≠ [] := by
      intro hnil
      rw [hnil] at hlen
      simp at hlen
    have hhead : ((src.drop o).take (n + 1)).headD 0 = src.getD o 0 := by
      rw [headD_take_succ, headD_drop_getD]
    have hmap : ((src.drop o).take (n + 1)).map (fun z => int32wrap (z - src.getD o 0)) =
        ((src.drop o).take (n + 1)).map (fun z => z - src.getD o 0) := by
      apply List.map_congr_left
      intro z hz
      have hzsrc : z ∈ src := List.drop_subset o src (List.take_subset _ _ hz)
      have hssrc : src.getD o 0 ∈ src := by
        have ho : o < src.length := by omega
        rw [List.getD_eq_getElem _ _ ho]
        exact List.getElem_mem ho
      obtain ⟨hz0, hz1⟩ := hrange z hzsrc
      obtain ⟨hs0, hs1⟩ := hrange _ hssrc
      exact int32wrap_id (by omega) (by omega)
    have hcond2 : (o ≠ 0 ∨ 4 * (n + 1) < 4 * src.length) := by
      rcases hcond with h | h
      · exact Or.inl h
      · exact Or.inr (by omega)
    refine ⟨?_, ?_, ?_⟩
    · simp only [getZeroBasedValueOffsets]
      rw [if_pos hcond2, hhead, hmap]
      have hlenmap : (List.map (fun z => z - src.getD o 0)
          ((src.drop o).take (n + 1))).length = n + 1 := by
        rw [List.length_map, hlen]
      simp [hlenmap]
      omega
    · rw [List.length_map, hlen]
    · obtain ⟨z, t, hzt⟩ := List.exists_cons_of_ne_nil hne
      rw [hzt]
      simp only [List.map_cons, List.head?_cons, Option.some.injEq]
      have : ((src.drop o).take (n + 1)).headD 0 = z := by rw [hzt]; rfl
      rw [hhead] at this
      omega
  · intro o n src ho hle hnonnil
    have hcond2 : ¬(o ≠ 0 ∨ 4 * (n + 1) < 4 * src.length) := by
      intro hcond
      rcases hcond with h | h
      · exact h ho
      · omega
    have hlen0 : ¬(((false, src) : Bool × List Int).2.length = 0) := by
      intro hzero
      exact hnonnil (List.eq_nil_of_length_eq_zero hzero)
    simp only [getZeroBasedValueOffsets]
    rw [if_neg hcond2, if_neg hlen0]
  · intro e p cols r hv hz
    exact (visitAll_state hv).2.2.2 hz

/-- C6 counterexample: a zero-length array with an empty offsets buffer
takes the retain branch (zero offset, no excess entries), but
`getZeroBasedValueOffsets` returns the absent sentinel `none` rather than
retaining the empty source buffer as the claim requires. -/
theorem zero_based_offsets_empty_cex :
    getZeroBasedValueOffsets 0 0 [] = none ∧
    ¬((0 : Nat) ≠ 0 ∨ 4 * (0 + 1) < 4 * ([] : List Int).length) ∧
    (none : Option (Bool × List Int)) ≠ some (false, ([] : List Int)) :=
  ⟨rfl, by decide, by decide⟩

/-- C6 witness: a sliced array (`offset 1`, `len 1`, offsets `[0, 2, 5]`)
gets the fresh rebased buffer `[0, 3]`; an unsliced non-empty buffer is
retained; and the visitor's field metadata has offset 0. -/
theorem zero_based_offsets_amended_w :
    (getZeroBasedValueOffsets 1 1 [0, 2, 5] = some (true, [0, 3]) ∧
      ([0, 3] : List Int).length = 1 + 1 ∧
      ([0, 3] : List Int).head? = some 0) ∧
    getZeroBasedValueOffsets 0 1 [0, 2] = some (false, [0, 2]) ∧
    (∀ f ∈ ([⟨1, 0, 0⟩] : List FieldMeta), f.offset = 0) :=
  ⟨zero_based_offsets_amended.1 1 1 [0, 2, 5] (by decide) (by decide) (by decide),
   zero_based_offsets_amended.2.1 0 1 [0, 2] rfl (by decide) (by decide),
   zero_based_offsets_amended.2.2 ⟨64, 0, true, -1, 0, [], []⟩ ⟨[], 0⟩
     [⟨.nullType, 1, 0, 0, none, none⟩] ⟨⟨64, 0, true, -1, 0, [⟨1, 0, 0⟩], []⟩, ⟨[], 0⟩⟩
     rfl (by simp)⟩

/-! ## Claim theorems: stream writer -/

/-- C9: closing a never-started writer first runs `start` (emitting a
Schema payload even for an empty stream), then writes the EOS marker —
four 0xFF bytes followed by four zero bytes — and releases every retained
dictionary reference; a second `close` is a no-op returning no error. -/
theorem writer_close_spec :
    (∀ w : WriterM, w.started = false → w.pwOpen = true →
      writerClose w = (⟨true, false, []⟩,
        [WEvent.schemaPayload, WEvent.bytesOut kEOS], none)) ∧
    kEOS = [0xff, 0xff, 0xff, 0xff, 0, 0, 0, 0] ∧
    (∀ w : WriterM, w.started = true → w.pwOpen = true →
      writerClose w = ({ w with pwOpen := false },
        [WEvent.bytesOut kEOS] ++ w.dictIds.map WEvent.releaseDict, none)) ∧
    (∀ w : WriterM, writerClose (writerClose w).1 = ((writerClose w).1, [], none)) := by
  refine ⟨?_, rfl, ?_, ?_⟩
  · intro w hs hp
    simp [writerClose, writerStart, hs, hp]
  · intro w hs hp
    simp [writerClose, writerStart, hs, hp]
  · intro w
    obtain ⟨s, pw, ids⟩ := w
    cases s <;> cases pw <;> simp [writerClose, writerStart]

/-- C9 witness: a fresh writer retaining dictionary id 7 — close emits
Schema then EOS (the retained set was reset by `start`); a started writer
releases its reference; closing twice changes nothing and returns no
error. -/
theorem writer_close_spec_w :
    writerClose ⟨false, true, [7]⟩ =
      (⟨true, false, []⟩, [WEvent.schemaPayload, WEvent.bytesOut kEOS], none) ∧
    kEOS = [0xff, 0xff, 0xff, 0xff, 0, 0, 0, 0] ∧
    writerClose ⟨true, true, [7]⟩ =
      (⟨true, false, [7]⟩, [WEvent.bytesOut kEOS, WEvent.releaseDict 7], none) ∧
    writerClose (writerClose ⟨false, true, [7]⟩).1 =
      ((writerClose ⟨false, true, [7]⟩).1, [], none) :=
  ⟨writer_close_spec.1 ⟨false, true, [7]⟩ rfl rfl,
   writer_close_spec.2.1,
   writer_close_spec.2.2.1 ⟨true, true, [7]⟩ rfl rfl,
   writer_close_spec.2.2.2 ⟨false, true, [7]⟩⟩

/-- C10: a writer built by `NewWriter` leaves `compressNP` at the Go zero
value 0, so its compression pass always takes the serial branch of
`compressBodyBuffers`, while `NewWriterWithPayloadWriter` propagates the
configured `compressNP`. -/
theorem newWriter_compress_serial :
    (∀ cfg : WConfig, (NewWriter cfg).compressNP = 0) ∧
    (∀ (cfg : WConfig) (codecFn : List UInt8 → Except CompErr (List UInt8))
        (body : List (Option (List UInt8))),
      compressBodyBuffers (NewWriter cfg).compressNP codecFn body =
        compressSerialLoop codecFn body) ∧
    (∀ cfg : WConfig, (NewWriterWithPayloadWriter cfg).compressNP = cfg.compressNP) := by
  refine ⟨fun cfg => rfl, ?_, fun cfg => rfl⟩
  intro cfg codecFn body
  simp [NewWriter, compressBodyBuffers]

end ArrowIPC
